/-
  Verification of the MCTS engine and its tic-tac-toe instance (ttt.go).

  The Go program is embedded shallowly:
  * `GameState` is the Go interface, embedded as a structure of four functions
    over a state type `σ` and an action type `α`.
  * Go's `Node` carries a parent pointer, a children slice, a visit counter and
    a float64 reward accumulator.  We embed the tree as an inductive type
    (children own their subtrees) and the parent pointer as a zipper context
    `Ctx`: a focused node together with its context is exactly a node plus the
    chain of its ancestors, which is what the Go pointer structure provides.
    `plug` rebuilds the full tree from a focused node and its context.
  * float64 rewards are idealised as real numbers; the UCT value, which Go
    computes as a float64 that can be +Inf, is embedded as an `EReal` so that
    the `visits == 0 ↦ +infinity` branch is represented faithfully.
  * `rand` is seeded but never consulted by the search; the engine functions
    below are direct translations and consume no source of randomness.
-/
import Mathlib

set_option maxHeartbeats 1000000

namespace MCTSTTT

/-- Embedding of the Go interface `GameState` (ttt.go lines 18-23): a record of
the four operations the engine requires of a game, over a state type `σ` and an
action type `α` (Go's `Action` is an empty interface; each concrete game fixes
the actual action type, `[2]int` for tic-tac-toe). -/
structure GameState (σ α : Type) where
  GetPossibleActions : σ → List α
  PerformAction : σ → α → σ
  IsTerminal : σ → Bool
  GetReward : σ → ℝ

/-- Embedding of the Go struct `Node` (ttt.go lines 10-16): state, children,
visit counter and reward accumulator.  The Go `parent` pointer is not a field
here; it is represented by the zipper context `Ctx` below, so that a Go node
pointer corresponds to a pair of a `Node` and a `Ctx`. -/
inductive Node (σ : Type) : Type where
  | mk (state : σ) (children : List (Node σ)) (visits : ℕ) (totalReward : ℝ) : Node σ

/-- Field accessor for `Node.state`. -/
def Node.state {σ : Type} : Node σ → σ
  | .mk s _ _ _ => s

/-- Field accessor for `Node.children`. -/
def Node.children {σ : Type} : Node σ → List (Node σ)
  | .mk _ cs _ _ => cs

/-- Field accessor for `Node.visits`. -/
def Node.visits {σ : Type} : Node σ → ℕ
  | .mk _ _ v _ => v

/-- Field accessor for `Node.totalReward`. -/
def Node.totalReward {σ : Type} : Node σ → ℝ
  | .mk _ _ _ tr => tr

/-- Embedding of `NewNode` (ttt.go lines 27-33): a fresh node holding `state`,
with an empty children slice and zero-valued statistics (Go zero values for the
omitted `visits` and `totalReward` fields).  The `parent` argument of the Go
function is the context at which the node is attached and does not live inside
the node in the zipper representation. -/
def NewNode {σ : Type} (state : σ) : Node σ :=
  Node.mk state [] 0 0

/-- Embedding of `(*Node).IsLeaf` (ttt.go lines 75-77): a node is a leaf iff
its children slice has length 0. -/
def Node.IsLeaf {σ : Type} (n : Node σ) : Bool :=
  n.children.isEmpty

/-- Embedding of `(*Node).UCTValue` (ttt.go lines 35-40).  `parentVisits` is
the visit count read through the Go parent pointer (`n.parent.visits`).  The
Go function returns float64 +Inf when `n.visits == 0` (without dividing and
without reading the parent) and otherwise
`totalReward/visits + 1.41*sqrt(log(parent.visits)/visits)`; the result is
embedded as an `EReal`, `⊤` standing for +Inf. -/
noncomputable def UCTValue {σ : Type} (parentVisits : ℕ) (n : Node σ) : EReal :=
  if n.visits = 0 then ⊤
  else ((n.totalReward / (n.visits : ℝ) +
      1.41 * Real.sqrt (Real.log (parentVisits : ℝ) / (n.visits : ℝ)) : ℝ) : EReal)

/-- Embedding of the selection loop inside `(*Node).Select` (ttt.go lines
46-54): `bestValue` starts at -Inf (`⊥`), `bestChild` starts at nil (`none`),
and each child in slice order replaces the best pair exactly when its UCT value
compares strictly greater than the running best value.  Go keeps a pointer to
the best child; the embedding keeps its position `i` in the children slice so
the zipper frame for that child can be built. -/
noncomputable def bestAux {σ : Type} (pv : ℕ) :
    List (Node σ) → ℕ → EReal × Option ℕ → EReal × Option ℕ
  | [], _, acc => acc
  | c :: cs, i, (bv, bi) =>
    if bv < UCTValue pv c then bestAux pv cs (i + 1) (UCTValue pv c, some i)
    else bestAux pv cs (i + 1) (bv, bi)

/-- Position of the child `(*Node).Select` descends into: the first child
attaining the maximal UCT value, `none` when the children slice is empty. -/
noncomputable def bestChildIdx {σ : Type} (pv : ℕ) (cs : List (Node σ)) : Option ℕ :=
  (bestAux pv cs 0 (⊥, none)).2

/-- Zipper context standing for the Go parent-pointer chain: `top` is a nil
parent (the root); `frame s pre post v tr up` records that the focused node is
a child of a node with state `s`, visit count `v`, accumulator `tr`, context
`up`, with siblings `pre` before it and `post` after it in the children
slice. -/
inductive Ctx (σ : Type) : Type where
  | top : Ctx σ
  | frame (state : σ) (pre : List (Node σ)) (post : List (Node σ))
      (visits : ℕ) (totalReward : ℝ) (up : Ctx σ) : Ctx σ

/-- Rebuild the full tree from a focused node and its context (following the
Go parent pointers up to the root). -/
def plug {σ : Type} : Node σ → Ctx σ → Node σ
  | t, .top => t
  | t, .frame s pre post v tr up => plug (Node.mk s (pre ++ t :: post) v tr) up

@[simp] theorem Node.state_mk {σ : Type} (s : σ) (cs : List (Node σ)) (v : ℕ) (tr : ℝ) :
    (Node.mk s cs v tr).state = s := rfl

@[simp] theorem Node.children_mk {σ : Type} (s : σ) (cs : List (Node σ)) (v : ℕ) (tr : ℝ) :
    (Node.mk s cs v tr).children = cs := rfl

@[simp] theorem Node.visits_mk {σ : Type} (s : σ) (cs : List (Node σ)) (v : ℕ) (tr : ℝ) :
    (Node.mk s cs v tr).visits = v := rfl

@[simp] theorem Node.totalReward_mk {σ : Type} (s : σ) (cs : List (Node σ)) (v : ℕ) (tr : ℝ) :
    (Node.mk s cs v tr).totalReward = tr := rfl

/-- UCT never compares equal to -Inf: it is `⊤` for an unvisited node and a
finite real for a visited one. -/
theorem UCTValue_ne_bot {σ : Type} (pv : ℕ) (n : Node σ) : UCTValue pv n ≠ ⊥ := by
  unfold UCTValue
  split
  · exact top_ne_bot
  · exact EReal.coe_ne_bot _

/-- Full characterisation of the Go best-child loop: the returned value bounds
the starting value and every scanned UCT value from above, and the returned
position is either the starting one (nothing scanned beat the starting value)
or the absolute position `i + m` of the first scanned child attaining the
returned value, every earlier scanned child lying strictly below it. -/
theorem bestAux_spec {σ : Type} (pv : ℕ) :
    ∀ (cs : List (Node σ)) (i : ℕ) (bv : EReal) (bi : Option ℕ),
      bv ≤ (bestAux pv cs i (bv, bi)).1 ∧
      (∀ j (hj : j < cs.length),
        UCTValue pv (cs.get ⟨j, hj⟩) ≤ (bestAux pv cs i (bv, bi)).1) ∧
      (((bestAux pv cs i (bv, bi)).2 = bi ∧ (bestAux pv cs i (bv, bi)).1 = bv) ∨
        ∃ m, ∃ hm : m < cs.length,
          (bestAux pv cs i (bv, bi)).2 = some (i + m) ∧
          (bestAux pv cs i (bv, bi)).1 = UCTValue pv (cs.get ⟨m, hm⟩) ∧
          bv < (bestAux pv cs i (bv, bi)).1 ∧
          ∀ j (hj : j < m), UCTValue pv (cs.get ⟨j, Nat.lt_trans hj hm⟩) <
            (bestAux pv cs i (bv, bi)).1) := by
  intro cs
  induction cs with
  | nil =>
    intro i bv bi
    refine ⟨le_refl _, ?_, Or.inl ⟨rfl, rfl⟩⟩
    intro j hj
    exact absurd hj (Nat.not_lt_zero j)
  | cons c cs ih =>
    intro i bv bi
    by_cases h : bv < UCTValue pv c
    · have hrw : bestAux pv (c :: cs) i (bv, bi) =
        bestAux pv cs (i + 1) (UCTValue pv c, some i) := by
        simp [bestAux, h]
      obtain ⟨ih1, ih2, ih3⟩ := ih (i + 1) (UCTValue pv c) (some i)
      rw [hrw]
      refine ⟨le_of_lt (lt_of_lt_of_le h ih1), ?_, ?_⟩
      · intro j hj
        match j with
        | 0 => simpa using ih1
        | Nat.succ j' =>
          have hj' : j' < cs.length := by
            simpa [Nat.succ_lt_succ_iff] using hj
          simpa using ih2 j' hj'
      · rcases ih3 with ⟨h2, h1⟩ | ⟨m, hm, h2, h1, hlt, hfirst⟩
        · refine Or.inr ⟨0, by simp, by simpa using h2, by simpa using h1, ?_, ?_⟩
          · rw [h1]; exact h
          · intro j hj
            exact absurd hj (Nat.not_lt_zero j)
        · refine Or.inr ⟨m + 1, Nat.succ_lt_succ hm, ?_, by simpa using h1, ?_, ?_⟩
          · rw [h2]
            congr 1
            omega
          · exact lt_trans h hlt
          · intro j hj
            match j with
            | 0 =>
              simpa using hlt
            | Nat.succ j' =>
              have hj' : j' < m := by omega
              simpa using hfirst j' hj'
    · have hrw : bestAux pv (c :: cs) i (bv, bi) = bestAux pv cs (i + 1) (bv, bi) := by
        simp [bestAux, h]
      obtain ⟨ih1, ih2, ih3⟩ := ih (i + 1) bv bi
      rw [hrw]
      have hcle : UCTValue pv c ≤ bv := not_lt.mp h
      refine ⟨ih1, ?_, ?_⟩
      · intro j hj
        match j with
        | 0 => simpa using le_trans hcle ih1
        | Nat.succ j' =>
          have hj' : j' < cs.length := by
            simpa [Nat.succ_lt_succ_iff] using hj
          simpa using ih2 j' hj'
      · rcases ih3 with ⟨h2, h1⟩ | ⟨m, hm, h2, h1, hlt, hfirst⟩
        · exact Or.inl ⟨h2, h1⟩
        · refine Or.inr ⟨m + 1, Nat.succ_lt_succ hm, ?_, by simpa using h1, hlt, ?_⟩
          · rw [h2]
            congr 1
            omega
          · intro j hj
            match j with
            | 0 =>
              simpa using lt_of_le_of_lt hcle hlt
            | Nat.succ j' =>
              have hj' : j' < m := by omega
              simpa using hfirst j' hj'

/-- On a nonempty children slice the Go loop always finds a child: the first
comparison is against -Inf and every UCT value exceeds -Inf.  The found
position is in range, attains the maximal UCT value over the slice, and every
earlier position lies strictly below it (first-maximum tie-break). -/
theorem bestChildIdx_spec {σ : Type} (pv : ℕ) (cs : List (Node σ)) (hne : cs ≠ []) :
    ∃ i, ∃ hi : i < cs.length, bestChildIdx pv cs = some i ∧
      (∀ j (hj : j < cs.length),
        UCTValue pv (cs.get ⟨j, hj⟩) ≤ UCTValue pv (cs.get ⟨i, hi⟩)) ∧
      ∀ j (hj : j < i), UCTValue pv (cs.get ⟨j, Nat.lt_trans hj hi⟩) <
        UCTValue pv (cs.get ⟨i, hi⟩) := by
  obtain ⟨h1, h2, h3⟩ := bestAux_spec pv cs 0 ⊥ none
  rcases h3 with ⟨hbi, hbv⟩ | ⟨m, hm, hbi, hbv, hlt, hfirst⟩
  · match cs, hne with
    | c :: cs, _ =>
      have := h2 0 (by simp)
      rw [hbv] at this
      exact absurd (le_bot_iff.mp this) (UCTValue_ne_bot pv _)
  · refine ⟨m, hm, by simpa using hbi, ?_, ?_⟩
    · intro j hj
      have := h2 j hj
      rw [hbv] at this
      exact this
    · intro j hj
      have := hfirst j hj
      rw [hbv] at this
      exact this

/-- Position returned by the best-child loop is in range of the children
slice. -/
theorem bestChildIdx_lt {σ : Type} {pv : ℕ} {cs : List (Node σ)} {i : ℕ}
    (h : bestChildIdx pv cs = some i) : i < cs.length := by
  obtain ⟨h1, h2, h3⟩ := bestAux_spec pv cs 0 ⊥ none
  rcases h3 with ⟨hbi, _⟩ | ⟨m, hm, hbi, _, _, _⟩
  · rw [bestChildIdx] at h
    rw [h] at hbi
    exact absurd hbi (Option.some_ne_none i)
  · rw [bestChildIdx] at h
    rw [h] at hbi
    have : i = m := by
      have := Option.some.inj hbi
      omega
    omega

/-- The best-child loop returns nil exactly on an empty children slice, i.e.
exactly when the node is a leaf. -/
theorem bestChildIdx_eq_none_iff {σ : Type} (pv : ℕ) (cs : List (Node σ)) :
    bestChildIdx pv cs = none ↔ cs = [] := by
  constructor
  · intro h
    by_contra hne
    obtain ⟨i, hi, hsome, _, _⟩ := bestChildIdx_spec pv cs hne
    rw [h] at hsome
    exact absurd hsome.symm (Option.some_ne_none i)
  · intro h
    subst h
    rfl

/-- Embedding of `(*Node).Select` (ttt.go lines 42-56) on the zipper: a leaf
(empty children slice, so the best-child loop yields nil and Go's `IsLeaf`
guard has fired) is returned as is; otherwise selection recurses into the
first child attaining the maximal UCT value, extending the context by that
child's frame.  The returned pair is the Go return pointer: the reached node
together with its ancestor chain. -/
noncomputable def Node.Select {σ : Type} : Node σ → Ctx σ → Node σ × Ctx σ
  | .mk s cs v tr, ctx =>
    match hb : bestChildIdx v cs with
    | none => (.mk s cs v tr, ctx)
    | some i =>
      Node.Select (cs.get ⟨i, bestChildIdx_lt hb⟩)
        (Ctx.frame s (cs.take i) (cs.drop (i + 1)) v tr ctx)
termination_by t _ => sizeOf t
decreasing_by
  have h1 : sizeOf (cs.get ⟨i, bestChildIdx_lt hb⟩) < sizeOf cs :=
    List.sizeOf_lt_of_mem (List.get_mem cs i (bestChildIdx_lt hb))
  simp only [Node.mk.sizeOf_spec]
  omega

/-- Embedding of `(*Node).Expand` (ttt.go lines 58-65): one child per action of
`GetPossibleActions`, in slice order, each a fresh `NewNode` holding the state
`PerformAction` produces, appended to the existing children slice. -/
def Node.Expand {σ α : Type} (G : GameState σ α) : Node σ → Node σ
  | .mk s cs v tr =>
    Node.mk s (cs ++ (G.GetPossibleActions s).map (fun a => NewNode (G.PerformAction s a))) v tr

/-- Embedding of `(*Node).Backpropagate` (ttt.go lines 67-73) on the zipper:
increment the focused node's visit count, add `reward` to its accumulator, and
recurse to the parent with the same reward until the parent is nil; the result
is the updated tree seen from the root. -/
def Node.Backpropagate {σ : Type} (reward : ℝ) : Node σ → Ctx σ → Node σ
  | .mk s cs v tr, .top => .mk s cs (v + 1) (tr + reward)
  | .mk s cs v tr, .frame ps pre post pv ptr up =>
    Node.Backpropagate reward (.mk ps (pre ++ (Node.mk s cs (v + 1) (tr + reward)) :: post) pv ptr) up

/-- One iteration of the engine loop body (ttt.go lines 82-88): select a leaf
from the root, expand it unless its state is terminal, re-select from it, read
the reward of the reached node's state and backpropagate that reward.  The
second component records the reward used by this iteration. -/
noncomputable def mctsStep {σ α : Type} (G : GameState σ α) (root : Node σ) : Node σ × ℝ :=
  let l := Node.Select root Ctx.top
  let node := if G.IsTerminal l.1.state then l.1 else Node.Expand G l.1
  let l2 := Node.Select node l.2
  (Node.Backpropagate (G.GetReward l2.1.state) l2.1 l2.2, G.GetReward l2.1.state)

/-- Iterate the engine loop body a given number of times. -/
noncomputable def mctsIter {σ α : Type} (G : GameState σ α) : ℕ → Node σ → Node σ
  | 0, t => t
  | n + 1, t => mctsIter G n (mctsStep G t).1

/-- Embedding of `MCTS` (ttt.go lines 79-91): build the root from the given
state and run the loop body `iterations` times, returning the root of the
resulting tree. -/
noncomputable def MCTS {σ α : Type} (G : GameState σ α) (rootState : σ) (iterations : ℕ) :
    Node σ :=
  mctsIter G iterations (NewNode rootState)

/-- Rewards read by `GetReward` in each successive iteration of the engine
loop, starting from the tree `t`. -/
noncomputable def mctsRewards {σ α : Type} (G : GameState σ α) : ℕ → Node σ → List ℝ
  | 0, _ => []
  | n + 1, t => (mctsStep G t).2 :: mctsRewards G n (mctsStep G t).1

/-- Statistics update a single `Backpropagate` call applies to the node it
touches: one more visit, `r` more accumulated reward, state and children
untouched. -/
def bump {σ : Type} (r : ℝ) : Node σ → Node σ
  | .mk s cs v tr => .mk s cs (v + 1) (tr + r)

/-- Statistics update `Backpropagate` applies to the whole ancestor chain: each
frame gets one more visit and `r` more reward; the sibling subtrees stored in
the frames are untouched. -/
def bumpCtx {σ : Type} (r : ℝ) : Ctx σ → Ctx σ
  | .top => .top
  | .frame s pre post v tr up => .frame s pre post (v + 1) (tr + r) (bumpCtx r up)

/-- A predicate holds everywhere in a tree: at the root node and, recursively,
at every node of every child subtree. -/
inductive Node.Holds {σ : Type} (P : Node σ → Prop) : Node σ → Prop where
  | intro (s : σ) (cs : List (Node σ)) (v : ℕ) (tr : ℝ) :
      P (Node.mk s cs v tr) → (∀ c ∈ cs, Node.Holds P c) →
      Node.Holds P (Node.mk s cs v tr)

/-- Every node of the tree whose state is terminal is childless. -/
def TerminalLeaf {σ α : Type} (G : GameState σ α) (t : Node σ) : Prop :=
  Node.Holds (fun n => G.IsTerminal n.state = true → n.children = []) t

/-- The terminal-nodes-are-leaves property for a context: every ancestor frame
holds a non-terminal state (it has at least the focused child, so the engine
must have expanded it, which the guard only allows for non-terminal states)
and every sibling subtree stored in a frame satisfies `TerminalLeaf`. -/
def CtxTerminalLeaf {σ α : Type} (G : GameState σ α) : Ctx σ → Prop
  | .top => True
  | .frame s pre post _ _ up =>
      G.IsTerminal s = false ∧ (∀ c ∈ pre, TerminalLeaf G c) ∧
      (∀ c ∈ post, TerminalLeaf G c) ∧ CtxTerminalLeaf G up

/-- Cell marker constants (ttt.go lines 95-99): `Empty = 0`, `X = 1`, `O = 2`
(Go `iota`). -/
def Empty : ℤ := 0

/-- Cell marker for player X. -/
def X : ℤ := 1

/-- Cell marker for player O. -/
def O : ℤ := 2

/-- Embedding of `type Board [3][3]int` (ttt.go line 101): indices are in
range 0..2 by construction everywhere the program touches the board. -/
abbrev Board : Type := Fin 3 → Fin 3 → ℤ

/-- Embedding of `TicTacToeState` (ttt.go lines 103-106). -/
structure TicTacToeState where
  board : Board
  player : ℤ

/-- Embedding of `(*TicTacToeState).GetPossibleActions` (ttt.go lines
108-118): scan rows 0..2 and within each row columns 0..2, appending `(i, j)`
for each empty cell. -/
def TicTacToeState.GetPossibleActions (s : TicTacToeState) : List (Fin 3 × Fin 3) :=
  (List.finRange 3).flatMap fun i =>
    (List.finRange 3).flatMap fun j =>
      if s.board i j == Empty then [(i, j)] else []

/-- Embedding of `(*TicTacToeState).PerformAction` (ttt.go lines 120-125): the
board is a Go array value, so `newBoard := s.board` copies it; the copy gets
the mover's mark at the action's cell and the turn flips (`3 - player`).  The
receiver is left untouched — the embedding is a pure function returning the
new state. -/
def TicTacToeState.PerformAction (s : TicTacToeState) (move : Fin 3 × Fin 3) : TicTacToeState :=
  { board := fun i j => if i = move.1 ∧ j = move.2 then s.player else s.board i j,
    player := 3 - s.player }

/-- Embedding of `(*TicTacToeState).checkWin` (ttt.go lines 140-147): some row
or column is filled with `player`, or one of the two diagonals is. -/
def TicTacToeState.checkWin (s : TicTacToeState) (player : ℤ) : Bool :=
  ((List.finRange 3).any fun i =>
    (s.board i 0 == player && s.board i 1 == player && s.board i 2 == player) ||
    (s.board 0 i == player && s.board 1 i == player && s.board 2 i == player)) ||
  (s.board 0 0 == player && s.board 1 1 == player && s.board 2 2 == player) ||
  (s.board 0 2 == player && s.board 1 1 == player && s.board 2 0 == player)

/-- Embedding of `(*TicTacToeState).checkDraw` (ttt.go lines 149-158): every
cell is filled. -/
def TicTacToeState.checkDraw (s : TicTacToeState) : Bool :=
  (List.finRange 3).all fun i => (List.finRange 3).all fun j => !(s.board i j == Empty)

/-- Embedding of `(*TicTacToeState).IsTerminal` (ttt.go lines 127-129). -/
def TicTacToeState.IsTerminal (s : TicTacToeState) : Bool :=
  s.checkWin X || s.checkWin O || s.checkDraw

/-- Embedding of `(*TicTacToeState).GetReward` (ttt.go lines 131-138): +1 when
X has a line, else -1 when O has a line, else 0. -/
def TicTacToeState.GetReward (s : TicTacToeState) : ℝ :=
  if s.checkWin X then 1 else if s.checkWin O then -1 else 0

/-- The tic-tac-toe instance of the `GameState` interface. -/
def ticTacToe : GameState TicTacToeState (Fin 3 × Fin 3) :=
  { GetPossibleActions := TicTacToeState.GetPossibleActions,
    PerformAction := TicTacToeState.PerformAction,
    IsTerminal := TicTacToeState.IsTerminal,
    GetReward := TicTacToeState.GetReward }

/-- The driver's initial state (ttt.go line 180): zero-valued board (all cells
`Empty`) with player X to move. -/
def initialState : TicTacToeState :=
  { board := fun _ _ => Empty, player := X }

/-- Backpropagation computes exactly the tree obtained by bumping the focused
node and every one of its ancestor frames by the same reward, every other
node's statistics being carried over unchanged. -/
theorem Backpropagate_eq_plug_bump {σ : Type} (r : ℝ) :
    ∀ (ctx : Ctx σ) (t : Node σ),
      Node.Backpropagate r t ctx = plug (bump r t) (bumpCtx r ctx) := by
  intro ctx
  induction ctx with
  | top =>
    intro t
    cases t with
    | mk s cs v tr => rfl
  | frame ps pre post pv ptr up ih =>
    intro t
    cases t with
    | mk s cs v tr =>
      show Node.Backpropagate r
        (Node.mk ps (pre ++ (Node.mk s cs (v + 1) (tr + r)) :: post) pv ptr) up = _
      rw [ih]
      rfl

/-- Root statistics of a plugged tree depend only on the focused node's
statistics (and on the context). -/
theorem plug_stats {σ : Type} :
    ∀ (ctx : Ctx σ) (t t' : Node σ), t.visits = t'.visits →
      t.totalReward = t'.totalReward →
      (plug t ctx).visits = (plug t' ctx).visits ∧
      (plug t ctx).totalReward = (plug t' ctx).totalReward := by
  intro ctx
  induction ctx with
  | top =>
    intro t t' hv hr
    exact ⟨hv, hr⟩
  | frame ps pre post pv ptr up ih =>
    intro t t' hv hr
    cases t with
    | mk s cs v tr =>
      cases t' with
      | mk s' cs' v' tr' =>
        exact ih (Node.mk ps (pre ++ Node.mk s cs v tr :: post) pv ptr)
          (Node.mk ps (pre ++ Node.mk s' cs' v' tr' :: post) pv ptr) rfl rfl

/-- Bumping the focused node and all its ancestor frames adds exactly one
visit and exactly `r` reward to the root of the plugged tree. -/
theorem plug_bump_stats {σ : Type} (r : ℝ) :
    ∀ (ctx : Ctx σ) (t : Node σ),
      (plug (bump r t) (bumpCtx r ctx)).visits = (plug t ctx).visits + 1 ∧
      (plug (bump r t) (bumpCtx r ctx)).totalReward = (plug t ctx).totalReward + r := by
  intro ctx
  induction ctx with
  | top =>
    intro t
    cases t with
    | mk s cs v tr => exact ⟨rfl, rfl⟩
  | frame ps pre post pv ptr up ih =>
    intro t
    cases t with
    | mk s cs v tr =>
      have h1 : plug (bump r (Node.mk s cs v tr)) (bumpCtx r (Ctx.frame ps pre post pv ptr up)) =
          plug (Node.mk ps (pre ++ Node.mk s cs (v + 1) (tr + r) :: post) (pv + 1) (ptr + r))
            (bumpCtx r up) := rfl
      have h2 := plug_stats (bumpCtx r up)
        (Node.mk ps (pre ++ Node.mk s cs (v + 1) (tr + r) :: post) (pv + 1) (ptr + r))
        (bump r (Node.mk ps (pre ++ Node.mk s cs v tr :: post) pv ptr)) rfl rfl
      have h3 := ih (Node.mk ps (pre ++ Node.mk s cs v tr :: post) pv ptr)
      refine ⟨?_, ?_⟩
      · rw [h1, h2.1, h3.1]
        rfl
      · rw [h1, h2.2, h3.2]
        rfl

/-- Root statistics after `Backpropagate`: one more visit and `r` more reward
than the tree the focused node came from. -/
theorem Backpropagate_stats {σ : Type} (r : ℝ) (t : Node σ) (ctx : Ctx σ) :
    (Node.Backpropagate r t ctx).visits = (plug t ctx).visits + 1 ∧
    (Node.Backpropagate r t ctx).totalReward = (plug t ctx).totalReward + r := by
  rw [Backpropagate_eq_plug_bump]
  exact plug_bump_stats r ctx t

/-- Unfolding `Select` at a node whose best-child loop found no child (a
leaf): the node itself is returned. -/
theorem Select_eq_self {σ : Type} (s : σ) (cs : List (Node σ)) (v : ℕ) (tr : ℝ)
    (ctx : Ctx σ) (h : bestChildIdx v cs = none) :
    Node.Select (Node.mk s cs v tr) ctx = (Node.mk s cs v tr, ctx) := by
  rw [Node.Select]
  split
  · rfl
  · rename_i i heq
    rw [h] at heq
    exact absurd heq (by simp)

/-- Unfolding `Select` at a node whose best-child loop found position `i`:
selection recurses into that child with the matching zipper frame. -/
theorem Select_eq_child {σ : Type} (s : σ) (cs : List (Node σ)) (v : ℕ) (tr : ℝ)
    (ctx : Ctx σ) (i : ℕ) (h : bestChildIdx v cs = some i) :
    Node.Select (Node.mk s cs v tr) ctx =
      Node.Select (cs.get ⟨i, bestChildIdx_lt h⟩)
        (Ctx.frame s (cs.take i) (cs.drop (i + 1)) v tr ctx) := by
  rw [Node.Select]
  split
  · rename_i heq
    rw [h] at heq
    exact absurd heq (by simp)
  · rename_i i' heq
    have hii : i' = i := by
      rw [h] at heq
      exact (Option.some.inj heq).symm
    subst hii
    rfl

/-- Replacing the focused child inside its frame rebuilds the original
children slice. -/
theorem take_get_drop {α : Type} (l : List α) (i : ℕ) (h : i < l.length) :
    l.take i ++ l.get ⟨i, h⟩ :: l.drop (i + 1) = l := by
  rw [List.get_eq_getElem, ← List.drop_eq_getElem_cons h, List.take_append_drop]

/-- Selection only walks the tree: plugging the reached node back into its
context yields the tree selection started from. -/
theorem Select_plug {σ : Type} (t : Node σ) (ctx : Ctx σ) :
    plug (Node.Select t ctx).1 (Node.Select t ctx).2 = plug t ctx := by
  induction t, ctx using Node.Select.induct with
  | case1 s cs v tr ctx hb =>
    rw [Select_eq_self s cs v tr ctx hb]
  | case2 s cs v tr ctx i hb ih =>
    rw [Select_eq_child s cs v tr ctx i hb]
    rw [ih]
    show plug (Node.mk s (cs.take i ++ cs.get ⟨i, bestChildIdx_lt hb⟩ :: cs.drop (i + 1)) v tr)
      ctx = _
    rw [take_get_drop cs i (bestChildIdx_lt hb)]

/-- Selection always reaches a leaf: the returned node has no children. -/
theorem Select_children {σ : Type} (t : Node σ) (ctx : Ctx σ) :
    (Node.Select t ctx).1.children = [] := by
  induction t, ctx using Node.Select.induct with
  | case1 s cs v tr ctx hb =>
    rw [Select_eq_self s cs v tr ctx hb]
    exact (bestChildIdx_eq_none_iff v cs).mp hb
  | case2 s cs v tr ctx i hb ih =>
    rw [Select_eq_child s cs v tr ctx i hb]
    exact ih

/-- Expansion does not change a node's visit counter. -/
theorem Expand_visits {σ α : Type} (G : GameState σ α) (t : Node σ) :
    (Node.Expand G t).visits = t.visits := by
  cases t with
  | mk s cs v tr => rfl

/-- Expansion does not change a node's reward accumulator. -/
theorem Expand_totalReward {σ α : Type} (G : GameState σ α) (t : Node σ) :
    (Node.Expand G t).totalReward = t.totalReward := by
  cases t with
  | mk s cs v tr => rfl

/-- One engine iteration adds exactly one visit and exactly the iteration's
reward to the root. -/
theorem mctsStep_stats {σ α : Type} (G : GameState σ α) (t : Node σ) :
    (mctsStep G t).1.visits = t.visits + 1 ∧
    (mctsStep G t).1.totalReward = t.totalReward + (mctsStep G t).2 := by
  have hsel1 := Select_plug t Ctx.top
  set l := Node.Select t Ctx.top with hl
  set node := if G.IsTerminal l.1.state then l.1 else Node.Expand G l.1 with hnode
  have hnv : node.visits = l.1.visits ∧ node.totalReward = l.1.totalReward := by
    rw [hnode]
    split
    · exact ⟨rfl, rfl⟩
    · exact ⟨Expand_visits G l.1, Expand_totalReward G l.1⟩
  have hsel2 := Select_plug node l.2
  set l2 := Node.Select node l.2 with hl2
  have hstep : mctsStep G t = (Node.Backpropagate (G.GetReward l2.1.state) l2.1 l2.2,
      G.GetReward l2.1.state) := rfl
  have hback := Backpropagate_stats (G.GetReward l2.1.state) l2.1 l2.2
  have hpl := plug_stats l.2 node l.1 hnv.1 hnv.2
  have htop : plug t Ctx.top = t := rfl
  rw [htop] at hsel1
  constructor
  · rw [hstep]
    show (Node.Backpropagate (G.GetReward l2.1.state) l2.1 l2.2).visits = t.visits + 1
    rw [hback.1, hsel2, hpl.1, hsel1]
  · rw [hstep]
    show (Node.Backpropagate (G.GetReward l2.1.state) l2.1 l2.2).totalReward =
      t.totalReward + G.GetReward l2.1.state
    rw [hback.2, hsel2, hpl.2, hsel1]

/-- Accumulated root statistics over any number of engine iterations: `n`
iterations add `n` visits and the sum of the iterations' rewards, and one
reward is recorded per iteration. -/
theorem mctsIter_stats {σ α : Type} (G : GameState σ α) :
    ∀ (n : ℕ) (t : Node σ),
      (mctsIter G n t).visits = t.visits + n ∧
      (mctsRewards G n t).length = n ∧
      (mctsIter G n t).totalReward = t.totalReward + (mctsRewards G n t).sum := by
  intro n
  induction n with
  | zero =>
    intro t
    exact ⟨rfl, rfl, by simp [mctsIter, mctsRewards]⟩
  | succ n ih =>
    intro t
    obtain ⟨ihv, ihl, ihr⟩ := ih (mctsStep G t).1
    obtain ⟨hv, hr⟩ := mctsStep_stats G t
    refine ⟨?_, ?_, ?_⟩
    · show (mctsIter G n (mctsStep G t).1).visits = t.visits + (n + 1)
      rw [ihv, hv]
      omega
    · show ((mctsStep G t).2 :: mctsRewards G n (mctsStep G t).1).length = n + 1
      simp [ihl]
    · show (mctsIter G n (mctsStep G t).1).totalReward =
        t.totalReward + ((mctsStep G t).2 :: mctsRewards G n (mctsStep G t).1).sum
      rw [ihr, hr, List.sum_cons]
      ring

/-- Plugging a good focused node into a good context yields a tree that is
good everywhere. -/
theorem TerminalLeaf_plug {σ α : Type} (G : GameState σ α) :
    ∀ (ctx : Ctx σ) (t : Node σ), TerminalLeaf G t → CtxTerminalLeaf G ctx →
      TerminalLeaf G (plug t ctx) := by
  intro ctx
  induction ctx with
  | top =>
    intro t h _
    exact h
  | frame s pre post v tr up ih =>
    intro t h hctx
    obtain ⟨hterm, hpre, hpost, hup⟩ := hctx
    apply ih
    · refine Node.Holds.intro s (pre ++ t :: post) v tr ?_ ?_
      · intro habs
        rw [Node.state_mk] at habs
        rw [habs] at hterm
        cases hterm
      · intro c hc
        rcases List.mem_append.mp hc with hc | hc
        · exact hpre c hc
        · rcases List.mem_cons.mp hc with hc | hc
          · rw [hc]
            exact h
          · exact hpost c hc
    · exact hup

/-- Bumping a node's statistics preserves the terminal-nodes-are-leaves
property (states and children are untouched). -/
theorem TerminalLeaf_bump {σ α : Type} (G : GameState σ α) (r : ℝ) (t : Node σ)
    (h : TerminalLeaf G t) : TerminalLeaf G (bump r t) := by
  cases t with
  | mk s cs v tr =>
    cases h with
    | intro _ _ _ _ hP hcs =>
      exact Node.Holds.intro s cs (v + 1) (tr + r) hP hcs

/-- Bumping every frame of a context preserves its terminal-nodes-are-leaves
property. -/
theorem CtxTerminalLeaf_bumpCtx {σ α : Type} (G : GameState σ α) (r : ℝ) :
    ∀ (ctx : Ctx σ), CtxTerminalLeaf G ctx → CtxTerminalLeaf G (bumpCtx r ctx) := by
  intro ctx
  induction ctx with
  | top =>
    intro h
    exact h
  | frame s pre post v tr up ih =>
    intro h
    obtain ⟨hterm, hpre, hpost, hup⟩ := h
    exact ⟨hterm, hpre, hpost, ih hup⟩

/-- Selection preserves the terminal-nodes-are-leaves property of the focused
node and of its context. -/
theorem Select_TerminalLeaf {σ α : Type} (G : GameState σ α) (t : Node σ) (ctx : Ctx σ) :
    TerminalLeaf G t → CtxTerminalLeaf G ctx →
      TerminalLeaf G (Node.Select t ctx).1 ∧ CtxTerminalLeaf G (Node.Select t ctx).2 := by
  induction t, ctx using Node.Select.induct with
  | case1 s cs v tr ctx hb =>
    intro h1 h2
    rw [Select_eq_self s cs v tr ctx hb]
    exact ⟨h1, h2⟩
  | case2 s cs v tr ctx i hb ih =>
    intro h1 h2
    rw [Select_eq_child s cs v tr ctx i hb]
    have hi : i < cs.length := bestChildIdx_lt hb
    cases h1 with
    | intro _ _ _ _ hP hcs =>
      apply ih
      · exact hcs _ (List.get_mem cs i hi)
      · have hterm : G.IsTerminal s = false := by
          cases hterm' : G.IsTerminal s with
          | false => rfl
          | true =>
            have hnil : cs = [] := hP (by rw [Node.state_mk]; exact hterm')
            rw [hnil] at hi
            exact absurd hi (by simp)
        refine ⟨hterm, ?_, ?_, h2⟩
        · intro c hc
          exact hcs c (List.take_subset i cs hc)
        · intro c hc
          exact hcs c (List.drop_subset (i + 1) cs hc)

/-- Expanding a node with a non-terminal state preserves the
terminal-nodes-are-leaves property: the expanded node stays non-terminal and
every fresh child is childless. -/
theorem TerminalLeaf_Expand {σ α : Type} (G : GameState σ α) (t : Node σ)
    (hterm : G.IsTerminal t.state = false) (h : TerminalLeaf G t) :
    TerminalLeaf G (Node.Expand G t) := by
  cases t with
  | mk s cs v tr =>
    cases h with
    | intro _ _ _ _ hP hcs =>
      refine Node.Holds.intro s
        (cs ++ (G.GetPossibleActions s).map (fun a => NewNode (G.PerformAction s a))) v tr ?_ ?_
      · intro habs
        rw [Node.state_mk] at habs
        rw [Node.state_mk] at hterm
        rw [habs] at hterm
        cases hterm
      · intro c hc
        rcases List.mem_append.mp hc with hc | hc
        · exact hcs c hc
        · obtain ⟨a, _, rfl⟩ := List.mem_map.mp hc
          refine Node.Holds.intro _ [] 0 0 (fun _ => rfl) ?_
          intro c hc
          cases hc

/-- One engine iteration preserves the terminal-nodes-are-leaves invariant of
the whole tree. -/
theorem mctsStep_TerminalLeaf {σ α : Type} (G : GameState σ α) (t : Node σ)
    (h : TerminalLeaf G t) : TerminalLeaf G (mctsStep G t).1 := by
  have h1 := Select_TerminalLeaf G t Ctx.top h trivial
  set l := Node.Select t Ctx.top with hl
  set node := if G.IsTerminal l.1.state then l.1 else Node.Expand G l.1 with hnode
  have hTLnode : TerminalLeaf G node := by
    rw [hnode]
    split
    · exact h1.1
    · rename_i hfalse
      exact TerminalLeaf_Expand G l.1 (Bool.not_eq_true _ ▸ eq_false_of_ne_true hfalse) h1.1
  have h2 := Select_TerminalLeaf G node l.2 hTLnode h1.2
  set l2 := Node.Select node l.2 with hl2
  show TerminalLeaf G (Node.Backpropagate (G.GetReward l2.1.state) l2.1 l2.2)
  rw [Backpropagate_eq_plug_bump]
  exact TerminalLeaf_plug G _ _ (TerminalLeaf_bump G _ _ h2.1)
    (CtxTerminalLeaf_bumpCtx G _ _ h2.2)

/-- Any number of engine iterations preserves the terminal-nodes-are-leaves
invariant. -/
theorem mctsIter_TerminalLeaf {σ α : Type} (G : GameState σ α) :
    ∀ (n : ℕ) (t : Node σ), TerminalLeaf G t → TerminalLeaf G (mctsIter G n t) := by
  intro n
  induction n with
  | zero =>
    intro t h
    exact h
  | succ n ih =>
    intro t h
    exact ih (mctsStep G t).1 (mctsStep_TerminalLeaf G t h)

/-- C1: for every node, `UCTValue` returns +infinity (`⊤`) when the node's
visit count is 0 — for every parent visit count, so without dividing or
reading the parent — and otherwise returns the finite real
`totalReward/visits + 1.41*sqrt(ln(parent.visits)/visits)`; consequently any
zero-visit child compares strictly greater than any child with positive visits
and finite statistics. -/
theorem uct_infinity_rule {σ : Type} (pv pv' : ℕ) (n m : Node σ)
    (h0 : n.visits = 0) (h1 : m.visits ≠ 0) :
    UCTValue pv n = ⊤ ∧
    UCTValue pv' m = ((m.totalReward / (m.visits : ℝ) +
      1.41 * Real.sqrt (Real.log (pv' : ℝ) / (m.visits : ℝ)) : ℝ) : EReal) ∧
    UCTValue pv' m < UCTValue pv n := by
  have ha : UCTValue pv n = ⊤ := by
    rw [UCTValue, if_pos h0]
  have hb : UCTValue pv' m = ((m.totalReward / (m.visits : ℝ) +
      1.41 * Real.sqrt (Real.log (pv' : ℝ) / (m.visits : ℝ)) : ℝ) : EReal) := by
    rw [UCTValue, if_neg h1]
  refine ⟨ha, hb, ?_⟩
  rw [ha, hb]
  exact EReal.coe_lt_top _

/-- Witness for C1 at concrete nodes: an unvisited node beats a node with 5
visits and reward 3 under any parent visit counts. -/
theorem uct_infinity_rule_witness :
    UCTValue 7 (Node.mk initialState [] 5 3) < UCTValue 2 (Node.mk initialState [] 0 0) :=
  (uct_infinity_rule 2 7 (Node.mk initialState [] 0 0) (Node.mk initialState [] 5 3)
    rfl (by decide)).2.2

/-- C2: `Select` applied to a leaf returns the node itself; applied to a
non-leaf it recurses into the first child attaining the maximal UCT value
(every child's UCT value is bounded by the chosen child's, and every child
strictly before it in slice order lies strictly below); and the node `Select`
returns is always a leaf, so the result is the unique leaf obtained by
repeatedly taking the first-maximal-UCT child. -/
theorem select_first_max {σ : Type} (t : Node σ) (ctx : Ctx σ) :
    (t.children = [] → Node.Select t ctx = (t, ctx)) ∧
    (t.children ≠ [] → ∃ i, ∃ hi : i < t.children.length,
      (∀ j (hj : j < t.children.length),
        UCTValue t.visits (t.children.get ⟨j, hj⟩) ≤
          UCTValue t.visits (t.children.get ⟨i, hi⟩)) ∧
      (∀ j (hj : j < i),
        UCTValue t.visits (t.children.get ⟨j, Nat.lt_trans hj hi⟩) <
          UCTValue t.visits (t.children.get ⟨i, hi⟩)) ∧
      Node.Select t ctx = Node.Select (t.children.get ⟨i, hi⟩)
        (Ctx.frame t.state (t.children.take i) (t.children.drop (i + 1))
          t.visits t.totalReward ctx)) ∧
    (Node.Select t ctx).1.children = [] := by
  obtain ⟨s, cs, v, tr⟩ := t
  refine ⟨?_, ?_, Select_children _ _⟩
  · intro h
    rw [Node.children_mk] at h
    subst h
    exact Select_eq_self s [] v tr ctx rfl
  · intro hne
    rw [Node.children_mk] at hne
    obtain ⟨i, hi, hsome, hmax, hfirst⟩ := bestChildIdx_spec v cs hne
    exact ⟨i, hi, hmax, hfirst, Select_eq_child s cs v tr ctx i hsome⟩

/-- Witness for C2 at a concrete leaf: selection from a fresh root returns the
root itself. -/
theorem select_first_max_witness :
    Node.Select (NewNode initialState) Ctx.top = (NewNode initialState, Ctx.top) :=
  (select_first_max (NewNode initialState) Ctx.top).1 rfl

/-- Counterexample to C3 as stated for every node: Go's `Expand` appends to
the existing children slice, so a node that already has one child and whose
state (the empty board) has 9 legal actions ends up with 10 children, not
exactly 9. -/
theorem expand_append_counterexample :
    ¬ ((Node.Expand ticTacToe (Node.mk initialState [NewNode initialState] 0 0)).children.length =
      (ticTacToe.GetPossibleActions initialState).length) := by
  decide

/-- C3 (amended with the leaf precondition the counterexample forces): for
every node with an empty children list whose state yields `k` legal actions,
`Expand` produces exactly the `k` children obtained by mapping the action list
in order through `PerformAction`, each a fresh node with zero visits, zero
reward and no children; with zero legal actions `Expand` is a no-op; and the
node's own state and statistics are untouched. -/
theorem expand_leaf_spec {σ α : Type} (G : GameState σ α) (n : Node σ)
    (h : n.children = []) :
    (Node.Expand G n).children =
      (G.GetPossibleActions n.state).map (fun a => NewNode (G.PerformAction n.state a)) ∧
    (Node.Expand G n).children.length = (G.GetPossibleActions n.state).length ∧
    (∀ c ∈ (Node.Expand G n).children, c.visits = 0 ∧ c.totalReward = 0 ∧ c.children = []) ∧
    (G.GetPossibleActions n.state = [] → Node.Expand G n = n) ∧
    (Node.Expand G n).state = n.state ∧
    (Node.Expand G n).visits = n.visits ∧
    (Node.Expand G n).totalReward = n.totalReward := by
  obtain ⟨s, cs, v, tr⟩ := n
  rw [Node.children_mk] at h
  subst h
  refine ⟨by simp [Node.Expand], by simp [Node.Expand], ?_, ?_, rfl, rfl, rfl⟩
  · intro c hc
    simp only [Node.Expand, Node.children_mk, List.nil_append] at hc
    obtain ⟨a, _, rfl⟩ := List.mem_map.mp hc
    exact ⟨rfl, rfl, rfl⟩
  · intro hnil
    rw [Node.state_mk] at hnil
    simp [Node.Expand, hnil]

/-- Witness for C3 (amended) at the fresh root of the empty board: expansion
yields exactly one child per legal action. -/
theorem expand_leaf_spec_witness :
    (Node.Expand ticTacToe (NewNode initialState)).children.length =
      (ticTacToe.GetPossibleActions (NewNode initialState).state).length :=
  (expand_leaf_spec ticTacToe (NewNode initialState) rfl).2.1

/-- C4: `Backpropagate r` rebuilds the tree by bumping the focused node and
every ancestor frame up to the root by the same un-negated reward `r` — each
bumped node gains exactly one visit and exactly `r` reward, keeping its state
and children — while every other node (the sibling subtrees stored in the
frames) passes through `bumpCtx` untouched, so no other node's statistics
change. -/
theorem backpropagate_spec {σ : Type} (r : ℝ) (t : Node σ) (ctx : Ctx σ) :
    Node.Backpropagate r t ctx = plug (bump r t) (bumpCtx r ctx) ∧
    (bump r t).visits = t.visits + 1 ∧
    (bump r t).totalReward = t.totalReward + r ∧
    (bump r t).state = t.state ∧
    (bump r t).children = t.children := by
  refine ⟨Backpropagate_eq_plug_bump r ctx t, ?_, ?_, ?_, ?_⟩ <;> cases t <;> rfl

/-- C5: after `MCTS(s, N)` the root's visit count is exactly `N`, one reward
is read per iteration, and the root's accumulated reward is exactly the sum of
the `N` rewards `GetReward` returned for the node targeted in each iteration
(every backpropagation path passes through the root). -/
theorem mcts_root_stats {σ α : Type} (G : GameState σ α) (s : σ) (N : ℕ) :
    (MCTS G s N).visits = N ∧
    (mctsRewards G N (NewNode s)).length = N ∧
    (MCTS G s N).totalReward = (mctsRewards G N (NewNode s)).sum := by
  obtain ⟨hv, hl, hr⟩ := mctsIter_stats G N (NewNode s)
  refine ⟨?_, hl, ?_⟩
  · rw [MCTS, hv]
    show 0 + N = N
    rw [Nat.zero_add]
  · rw [MCTS, hr]
    show (0 : ℝ) + _ = _
    rw [zero_add]

/-- C6: at every number of completed iterations, every node of the search tree
whose state is terminal has an empty children list — the engine's non-terminal
guard never lets `Expand` run on a terminal node, so terminal nodes stay
leaves throughout the search. -/
theorem mcts_terminal_stability {σ α : Type} (G : GameState σ α) (s : σ) (N : ℕ) :
    Node.Holds (fun n => G.IsTerminal n.state = true → n.children = []) (MCTS G s N) :=
  mctsIter_TerminalLeaf G N (NewNode s)
    (Node.Holds.intro s [] 0 0 (fun _ => rfl) (fun c hc => absurd hc (List.not_mem_nil c)))

/-- C8: for every action `(i, j)` that `GetPossibleActions` produces on `s`
(equivalently, `s.board[i][j] == Empty`), `PerformAction` returns a new state
whose board equals `s`'s board except that cell `(i, j)` now holds `s.player`,
and whose player is `3 - s.player`; the receiver is untouched — the embedding
of `PerformAction` is a pure function on the copied board value, exactly as
the Go code copies the array-valued `s.board` before writing. -/
theorem performAction_spec (s : TicTacToeState) (a : Fin 3 × Fin 3)
    (h : a ∈ s.GetPossibleActions) :
    s.board a.1 a.2 = Empty ∧
    (s.PerformAction a).board a.1 a.2 = s.player ∧
    (∀ i j : Fin 3, ¬(i = a.1 ∧ j = a.2) → (s.PerformAction a).board i j = s.board i j) ∧
    (s.PerformAction a).player = 3 - s.player := by
  refine ⟨?_, ?_, ?_, rfl⟩
  · simp only [TicTacToeState.GetPossibleActions, List.mem_flatMap] at h
    obtain ⟨i, _, j, _, hmem⟩ := h
    by_cases hcell : (s.board i j == Empty) = true
    · rw [if_pos hcell] at hmem
      have ha : a = (i, j) := List.mem_singleton.mp hmem
      subst ha
      exact beq_iff_eq.mp hcell
    · rw [if_neg hcell] at hmem
      cases hmem
  · show (if a.1 = a.1 ∧ a.2 = a.2 then s.player else s.board a.1 a.2) = s.player
    rw [if_pos ⟨rfl, rfl⟩]
  · intro i j hij
    show (if i = a.1 ∧ j = a.2 then s.player else s.board i j) = s.board i j
    rw [if_neg hij]

/-- Witness for C8 at the empty board and the corner action. -/
theorem performAction_spec_witness :
    ((0, 0) : Fin 3 × Fin 3) ∈ initialState.GetPossibleActions ∧
    (initialState.PerformAction (0, 0)).player = 3 - initialState.player :=
  ⟨by decide, (performAction_spec initialState (0, 0) (by decide)).2.2.2⟩

/-- C9: zero iterations return the fresh root: no children, no visits, no
accumulated reward. -/
theorem mcts_zero_iterations {σ α : Type} (G : GameState σ α) (s : σ) :
    MCTS G s 0 = NewNode s ∧ (MCTS G s 0).children = [] ∧
    (MCTS G s 0).visits = 0 ∧ (MCTS G s 0).totalReward = 0 :=
  ⟨rfl, rfl, rfl, rfl⟩

/-- C10: the search is deterministic — `Select`, `Expand`, the evaluation step
and `Backpropagate` are embedded below as pure functions consuming no source
of randomness (the Go program's seeded generator is never consulted by the
search), so two runs of `MCTS` on the same game, the same root state and the
same iteration count produce identical trees: equal in structure, visit counts
and accumulated rewards. -/
theorem mcts_deterministic {σ α : Type} (G : GameState σ α) (s : σ) (n : ℕ)
    (t1 t2 : Node σ) (h1 : t1 = MCTS G s n) (h2 : t2 = MCTS G s n) :
    t1 = t2 ∧ t1.visits = t2.visits ∧ t1.totalReward = t2.totalReward ∧
    t1.children = t2.children := by
  subst h1
  subst h2
  exact ⟨rfl, rfl, rfl, rfl⟩

/-- Witness for C10: two runs from the driver's initial position coincide. -/
theorem mcts_deterministic_witness :
    MCTS ticTacToe initialState 0 = MCTS ticTacToe initialState 0 :=
  (mcts_deterministic ticTacToe initialState 0 (MCTS ticTacToe initialState 0)
    (MCTS ticTacToe initialState 0) rfl rfl).1

end MCTSTTT
